import Mathlib

/-!
# Verification of the Doris write-path memtable (be/src/olap/memtable.cpp)

A shallow embedding of `MemTable` from `be/src/olap/memtable.cpp`.  The parts of
the engine that the memtable calls but whose sources are not part of this
repository snapshot (the skip-list index, the per-column aggregator, the
`MemPool` arena, the row comparators) are modelled from the specification and
are marked as such in their doc comments.  Everything else follows the source
file line by line.

Conventions of the embedding:
* an encoded row is a `Row`: the key-column prefix (`key`), the value columns
  (`vals`), plus two accounting fields, `varLen` (bytes of out-of-band
  variable-length payload the row's encoding allocates in the destination
  arena) and `aggObjs` (the number of aggregate-typed objects the row's
  encoding constructs in the aggregate object pool passed to `consume`);
* the two `MemPool` arenas and the two aggregate object pools are modelled by
  their live/high-water byte counters inside `MemTableState`;
* the skip list is modelled by its contents in comparator order
  (a `List Row`), with `find`, `Insert` and `InsertWithHint` modelled from the
  ordered-index contract of the specification.
-/

namespace Doris

/-! ## Comparators

`compare_row`, `RowCursorComparator` and `TupleRowZOrderComparator` are not in
the source snapshot; the specification only requires a deterministic total
three-way order on encoded keys.  `LawfulCmp` states exactly that, and
`lexCmp` is the lexicographic instance used by witnesses. -/

/-- Modelled from the spec: the comparator exposes a pure three-way comparison
that is a total order on encoded keys (spec §4.3).  `symm` orients the
comparison and `le_trans` makes "not greater" transitive. -/
structure LawfulCmp (cmp : List Int → List Int → Ordering) : Prop where
  symm : ∀ a b, cmp a b = (cmp b a).swap
  le_trans : ∀ a b c, cmp a b ≠ Ordering.gt → cmp b c ≠ Ordering.gt →
    cmp a c ≠ Ordering.gt

namespace LawfulCmp

variable {cmp : List Int → List Int → Ordering}

theorem refl (h : LawfulCmp cmp) (a : List Int) : cmp a a = Ordering.eq := by
  have hs := h.symm a a
  cases hc : cmp a a with
  | lt => rw [hc] at hs; exact absurd hs (by decide)
  | eq => rfl
  | gt => rw [hc] at hs; exact absurd hs (by decide)

theorem eq_symm (h : LawfulCmp cmp) {a b : List Int}
    (hab : cmp a b = Ordering.eq) : cmp b a = Ordering.eq := by
  have hs := h.symm b a
  rw [hab] at hs
  exact hs

theorem gt_iff_lt (h : LawfulCmp cmp) {a b : List Int} :
    cmp a b = Ordering.gt ↔ cmp b a = Ordering.lt := by
  have hs := h.symm a b
  constructor
  · intro hab
    rw [hab] at hs
    cases hba : cmp b a with
    | lt => rfl
    | eq => rw [hba] at hs; exact absurd hs (by decide)
    | gt => rw [hba] at hs; exact absurd hs (by decide)
  · intro hba
    rw [hba] at hs
    exact hs

theorem lt_ne_gt (_h : LawfulCmp cmp) {a b : List Int}
    (hab : cmp a b = Ordering.lt) : cmp a b ≠ Ordering.gt := by simp [hab]

theorem eq_ne_gt (_h : LawfulCmp cmp) {a b : List Int}
    (hab : cmp a b = Ordering.eq) : cmp a b ≠ Ordering.gt := by simp [hab]

theorem lt_trans (h : LawfulCmp cmp) {a b c : List Int}
    (hab : cmp a b = Ordering.lt) (hbc : cmp b c = Ordering.lt) :
    cmp a c = Ordering.lt := by
  have hle : cmp a c ≠ Ordering.gt :=
    h.le_trans a b c (h.lt_ne_gt hab) (h.lt_ne_gt hbc)
  cases hac : cmp a c with
  | lt => rfl
  | gt => exact absurd hac hle
  | eq =>
    have hca : cmp c a = Ordering.eq := h.eq_symm hac
    have h2 : cmp c b ≠ Ordering.gt :=
      h.le_trans c a b (h.eq_ne_gt hca) (h.lt_ne_gt hab)
    have h3 : cmp c b = Ordering.gt := h.gt_iff_lt.mpr hbc
    exact absurd h3 h2

theorem lt_of_le_of_lt (h : LawfulCmp cmp) {a b c : List Int}
    (hab : cmp a b ≠ Ordering.gt) (hbc : cmp b c = Ordering.lt) :
    cmp a c = Ordering.lt := by
  have hle : cmp a c ≠ Ordering.gt := h.le_trans a b c hab (h.lt_ne_gt hbc)
  cases hac : cmp a c with
  | lt => rfl
  | gt => exact absurd hac hle
  | eq =>
    have hca : cmp c a = Ordering.eq := h.eq_symm hac
    have h2 : cmp c b ≠ Ordering.gt :=
      h.le_trans c a b (h.eq_ne_gt hca) hab
    have h3 : cmp c b = Ordering.gt := h.gt_iff_lt.mpr hbc
    exact absurd h3 h2

theorem lt_of_lt_of_le (h : LawfulCmp cmp) {a b c : List Int}
    (hab : cmp a b = Ordering.lt) (hbc : cmp b c ≠ Ordering.gt) :
    cmp a c = Ordering.lt := by
  have hle : cmp a c ≠ Ordering.gt := h.le_trans a b c (h.lt_ne_gt hab) hbc
  cases hac : cmp a c with
  | lt => rfl
  | gt => exact absurd hac hle
  | eq =>
    have hca : cmp c a = Ordering.eq := h.eq_symm hac
    have h2 : cmp b a ≠ Ordering.gt :=
      h.le_trans b c a hbc (h.eq_ne_gt hca)
    have h3 : cmp b a = Ordering.gt := h.gt_iff_lt.mpr hab
    exact absurd h3 h2

/-- Comparing against cmp-equal keys gives the same answer. -/
theorem eq_compat_right (h : LawfulCmp cmp) {k k2 : List Int}
    (he : cmp k k2 = Ordering.eq) (x : List Int) : cmp x k = cmp x k2 := by
  have hk2k : cmp k2 k = Ordering.eq := h.eq_symm he
  cases hxk : cmp x k with
  | lt =>
    exact (h.lt_of_lt_of_le hxk (h.eq_ne_gt he)).symm
  | eq =>
    cases hxk2 : cmp x k2 with
    | lt =>
      have hc : cmp x k = Ordering.lt := h.lt_of_lt_of_le hxk2 (h.eq_ne_gt hk2k)
      rw [hxk] at hc
      exact absurd hc (by decide)
    | eq => rfl
    | gt =>
      have hk2x : cmp k2 x = Ordering.lt := h.gt_iff_lt.mp hxk2
      have hc : cmp k2 k = Ordering.lt :=
        h.lt_of_lt_of_le hk2x (h.eq_ne_gt hxk)
      rw [hk2k] at hc
      exact absurd hc (by decide)
  | gt =>
    have hkx : cmp k x = Ordering.lt := h.gt_iff_lt.mp hxk
    have hc : cmp k2 x = Ordering.lt := h.lt_of_le_of_lt (h.eq_ne_gt hk2k) hkx
    exact (h.gt_iff_lt.mpr hc).symm

theorem eq_compat_left (h : LawfulCmp cmp) {a b : List Int}
    (he : cmp a b = Ordering.eq) (c : List Int) : cmp a c = cmp b c := by
  have h1 := h.symm a c
  have h2 := h.symm b c
  rw [h1, h2, h.eq_compat_right (h.eq_symm he) c]

end LawfulCmp

/-- Three-way comparison on `Int`, the per-cell comparison underlying the
lexicographic row comparator. -/
def intCmp (a b : Int) : Ordering :=
  if a < b then Ordering.lt else if b < a then Ordering.gt else Ordering.eq

theorem intCmp_symm (a b : Int) : intCmp a b = (intCmp b a).swap := by
  unfold intCmp
  rcases lt_trichotomy a b with hab | hab | hab
  · simp only [if_pos hab, if_neg (by omega : ¬ b < a)]; rfl
  · subst hab
    simp only [if_neg (by omega : ¬ a < a)]; rfl
  · simp only [if_pos hab, if_neg (by omega : ¬ a < b)]; rfl

theorem intCmp_eq_iff (a b : Int) : intCmp a b = Ordering.eq ↔ a = b := by
  unfold intCmp
  by_cases h1 : a < b
  · rw [if_pos h1]
    constructor
    · intro hc; exact absurd hc (by decide)
    · intro heq; exact absurd h1 (by omega)
  · rw [if_neg h1]
    by_cases h2 : b < a
    · rw [if_pos h2]
      constructor
      · intro hc; exact absurd hc (by decide)
      · intro heq; exact absurd h2 (by omega)
    · rw [if_neg h2]
      constructor
      · intro _; omega
      · intro _; rfl

theorem intCmp_lt_iff (a b : Int) : intCmp a b = Ordering.lt ↔ a < b := by
  unfold intCmp
  by_cases h1 : a < b
  · rw [if_pos h1]
    exact ⟨fun _ => h1, fun _ => rfl⟩
  · rw [if_neg h1]
    by_cases h2 : b < a
    · rw [if_pos h2]
      constructor
      · intro hc; exact absurd hc (by decide)
      · intro hlt; exact absurd hlt h1
    · rw [if_neg h2]
      constructor
      · intro hc; exact absurd hc (by decide)
      · intro hlt; exact absurd hlt h1

/-- Modelled from the spec: the lexicographic comparator over the encoded key
columns (`RowCursorComparator` / `compare_row`, spec §4.3). -/
def lexCmp : List Int → List Int → Ordering
  | [], [] => Ordering.eq
  | [], _ :: _ => Ordering.lt
  | _ :: _, [] => Ordering.gt
  | a :: as, b :: bs =>
    match intCmp a b with
    | Ordering.lt => Ordering.lt
    | Ordering.gt => Ordering.gt
    | Ordering.eq => lexCmp as bs

theorem lexCmp_symm : ∀ (a b : List Int), lexCmp a b = (lexCmp b a).swap
  | [], [] => rfl
  | [], _ :: _ => rfl
  | _ :: _, [] => rfl
  | x :: xs, y :: ys => by
    have hs := intCmp_symm x y
    simp only [lexCmp]
    cases hyx : intCmp y x with
    | lt =>
      rw [hyx] at hs
      rw [hs]
      rfl
    | eq =>
      rw [hyx] at hs
      rw [hs]
      exact lexCmp_symm xs ys
    | gt =>
      rw [hyx] at hs
      rw [hs]
      rfl

theorem lexCmp_le_trans : ∀ (a b c : List Int), lexCmp a b ≠ Ordering.gt →
    lexCmp b c ≠ Ordering.gt → lexCmp a c ≠ Ordering.gt
  | [], _, c, _, _ => by
    cases c with
    | nil => exact fun hcon => Ordering.noConfusion hcon
    | cons z zs => exact fun hcon => Ordering.noConfusion hcon
  | x :: xs, [], c, hab, _ => (hab rfl).elim
  | _ :: _, _ :: _, [], _, hbc => (hbc rfl).elim
  | x :: xs, y :: ys, z :: zs, hab, hbc => by
    simp only [lexCmp] at hab hbc ⊢
    cases hxy : intCmp x y with
    | gt => rw [hxy] at hab; exact (hab rfl).elim
    | lt =>
      rw [hxy] at hab
      cases hyz : intCmp y z with
      | gt => rw [hyz] at hbc; exact (hbc rfl).elim
      | lt =>
        have hxz : intCmp x z = Ordering.lt := by
          rw [intCmp_lt_iff] at hxy hyz ⊢
          omega
        rw [hxz]
        exact fun hcon => Ordering.noConfusion hcon
      | eq =>
        have hyz2 : y = z := (intCmp_eq_iff y z).mp hyz
        subst hyz2
        rw [hxy]
        exact fun hcon => Ordering.noConfusion hcon
    | eq =>
      have hxy2 : x = y := (intCmp_eq_iff x y).mp hxy
      subst hxy2
      rw [hxy] at hab
      cases hxz : intCmp x z with
      | gt => rw [hxz] at hbc; exact (hbc rfl).elim
      | lt =>
        exact fun hcon => Ordering.noConfusion hcon
      | eq =>
        rw [hxz] at hbc
        exact lexCmp_le_trans xs ys zs hab hbc

/-- The lexicographic comparator satisfies the comparator contract. -/
theorem lexCmp_lawful : LawfulCmp lexCmp :=
  ⟨lexCmp_symm, lexCmp_le_trans⟩

/-! ## Data model -/

/-- An encoded row (`ContiguousRow` over a schema-sized block): `key` is the
key-column prefix read by the comparator, `vals` the value columns (the
sequence column, when present, is one of them).  `varLen` counts the bytes of
out-of-band variable-length payload the row's encoding places in the
destination arena and `aggObjs` the aggregate-typed objects it constructs in
the aggregate object pool handed to `consume` (spec §3, §4.2). -/
structure Row where
  key : List Int
  vals : List Int
  varLen : Nat
  aggObjs : Nat
deriving DecidableEq, Repr

/-- The default row used only as a `getD` fallback. -/
def row0 : Row := ⟨[], [], 0, 0⟩

/-- `KeysType` from `olap_common.h` as used by `memtable.cpp`. -/
inductive KeysType where
  | DUP_KEYS
  | AGG_KEYS
  | UNIQUE_KEYS
deriving DecidableEq, Repr

/-- The tablet's sort discipline (`SortType` in the constructor, lines 46-51). -/
inductive SortType where
  | LEXICAL
  | ZORDER
deriving DecidableEq, Repr

/-- The schema facts `memtable.cpp` reads: `has_sequence_col` /
`sequence_col_idx` (line 119-120), the per-value-column aggregate functions and
finalizers (opaque in the spec, §4.5), and `schema_size` (line 44). -/
structure Schema where
  hasSequenceCol : Bool
  sequenceColIdx : Nat
  agg : Nat → Int → Int → Int
  finalizeVal : Nat → Int → Int
  schemaSize : Nat

/-- The construction parameters of a memtable (constructor, lines 32-54):
the schema, the key model, and the comparator choice.  `zcmp` stands for the
Z-order comparator, whose code is not in the snapshot. -/
structure MemTableCfg where
  schema : Schema
  keysType : KeysType
  sortType : SortType
  zcmp : List Int → List Int → Ordering

/-- The comparator selected by the constructor (lines 46-51): the Z-order
comparator when the tablet sort type is Z-order, else the lexicographic
`RowCursorComparator`. -/
def MemTableCfg.cmp (c : MemTableCfg) : List Int → List Int → Ordering :=
  match c.sortType with
  | SortType.ZORDER => c.zcmp
  | SortType.LEXICAL => lexCmp

/-- Internal operations of one `insert` call, recorded in order. -/
inductive Ev where
  | allocBufE
  | allocTableE
  | findE
  | aggE
  | acquireDataE
  | insertE
  | insertHintE
  | clearBufE
  | clearScratchE
deriving DecidableEq, Repr

/-- The mutable state of a memtable: the row counter `_rows`, the skip-list
contents in comparator order, the live/high-water counters of the two
`MemPool` arenas, the sizes of the two aggregate object pools, and the event
trace. -/
structure MemTableState where
  rows : Nat
  index : List Row
  bufferLive : Nat
  bufferHigh : Nat
  tableLive : Nat
  aggScratch : Nat
  aggDurable : Nat
  ev : List Ev
deriving DecidableEq, Repr

/-- The state of a freshly constructed memtable. -/
def initState : MemTableState :=
  { rows := 0, index := [], bufferLive := 0, bufferHigh := 0, tableLive := 0,
    aggScratch := 0, aggDurable := 0, ev := [] }

/-! ## Aggregator (spec §4.5; `agg_update_row`, `agg_update_row_with_sequence`
and `agg_finalize_row` are not in the snapshot) -/

/-- Read the sequence cell of a row at value-column position `i`. -/
def seqOf (i : Nat) (r : Row) : Int := r.vals.getD i 0

/-- Modelled from the spec: `update(dst, src)` applies each value column's
aggregate function to the pair of cells; key columns are untouched (§4.5). -/
def agg_update_row (s : Schema) (dst src : Row) : Row :=
  let newVals := (List.range dst.vals.length).map
    (fun i => s.agg i (dst.vals.getD i 0) (src.vals.getD i 0))
  { dst with vals := newVals }

/-- Modelled from the spec: `update_with_sequence(dst, src, seq_idx)` —
if `src.cells[seq_idx] >= dst.cells[seq_idx]` overwrite every non-key column
in `dst` from `src`, else no-op (§4.5). -/
def agg_update_row_with_sequence (_s : Schema) (dst src : Row) (seqIdx : Nat) :
    Row :=
  if seqOf seqIdx dst ≤ seqOf seqIdx src then { dst with vals := src.vals }
  else dst

/-- `MemTable::_aggregate_two_row` (lines 117-125): dispatch on
`has_sequence_col`. -/
def aggregate_two_row (s : Schema) (srcRow dstRow : Row) : Row :=
  if s.hasSequenceCol then
    agg_update_row_with_sequence s dstRow srcRow s.sequenceColIdx
  else
    agg_update_row s dstRow srcRow

/-- Modelled from the spec: `finalize(row)` converts every value column's
aggregate state to its externally visible representation; key columns are
untouched (§4.5). -/
def agg_finalize_row (s : Schema) (r : Row) : Row :=
  let newVals := (List.range r.vals.length).map
    (fun i => s.finalizeVal i (r.vals.getD i 0))
  { r with vals := newVals }

/-! ## Ordered index (spec §4.4: the skip list is not in the snapshot).

The index is modelled by its contents in comparator order.  `findRow` models
`SkipList::Find` (found flag + hint position), `insertAt` models insertion at
a position (used for both `InsertWithHint` and duplicate-mode `Insert`), and
`upperB` the position the duplicate-mode `Insert` uses: after every
arrival-ordered equal key, per §4.4. -/

/-- Insert `r` before position `n` (appending when `n` exceeds the length). -/
def insertAt (n : Nat) (r : Row) : List Row → List Row
  | [] => [r]
  | x :: xs =>
    match n with
    | 0 => r :: x :: xs
    | m + 1 => x :: insertAt m r xs

/-- Replace the row at position `n` by `f` of it. -/
def updAt (n : Nat) (f : Row → Row) : List Row → List Row
  | [] => []
  | x :: xs =>
    match n with
    | 0 => f x :: xs
    | m + 1 => x :: updAt m f xs

/-- Modelled from the spec: `find(key) -> (found, hint)` (§4.4).  The hint is
the position of the first entry not below `key`; `found` says that entry
exists and compares equal. -/
def findRow (cmp : List Int → List Int → Ordering) (k : List Int) :
    List Row → Bool × Nat
  | [] => (false, 0)
  | x :: xs =>
    if cmp x.key k = Ordering.lt then
      let p := findRow cmp k xs
      (p.1, p.2 + 1)
    else
      (cmp x.key k == Ordering.eq, 0)

/-- Modelled from the spec: the position duplicate-mode `Insert` uses — after
every entry not above `key`, so equal keys stay in arrival order (§4.4). -/
def upperB (cmp : List Int → List Int → Ordering) (k : List Int) :
    List Row → Nat
  | [] => 0
  | x :: xs =>
    if cmp x.key k = Ordering.gt then 0 else upperB cmp k xs + 1

/-- First row whose key compares equal to `k`. -/
def lookupKey (cmp : List Int → List Int → Ordering) (k : List Int)
    (l : List Row) : Option Row :=
  l.find? (fun r => cmp r.key k == Ordering.eq)

/-! ## MemTable façade -/

namespace MemTable

/-- `MemTable::insert` (lines 68-104).  `_rows++` happens first (line 69).
The `DUP_KEYS` branch (lines 72-79) allocates the row block in the table
arena, encodes into it (`_tuple_to_row` with `_table_mem_pool`, which still
passes `_agg_buffer_pool` as the object pool, line 113), inserts into the
skip list, and returns.  The other branch (lines 86-103) encodes into the
buffer arena, probes with `Find`, aggregates in place when found, else
copies into the table arena, transfers the scratch aggregate objects
(`acquire_data`, line 96) and inserts with the hint; both paths then clear
the buffer arena and the scratch aggregate pool (lines 102-103). -/
def insert (c : MemTableCfg) (st : MemTableState) (t : Row) : MemTableState :=
  let st1 := { st with rows := st.rows + 1 }
  if c.keysType = KeysType.DUP_KEYS then
    { st1 with
      tableLive := st1.tableLive + c.schema.schemaSize + t.varLen,
      aggScratch := st1.aggScratch + t.aggObjs,
      index := insertAt (upperB c.cmp t.key st1.index) t st1.index,
      ev := st1.ev ++ [Ev.allocTableE, Ev.insertE] }
  else
    let st2 := { st1 with
      bufferLive := st1.bufferLive + c.schema.schemaSize + t.varLen,
      bufferHigh :=
        max st1.bufferHigh (st1.bufferLive + c.schema.schemaSize + t.varLen),
      aggScratch := st1.aggScratch + t.aggObjs,
      ev := st1.ev ++ [Ev.allocBufE, Ev.findE] }
    let fr := findRow c.cmp t.key st2.index
    let st3 :=
      if fr.1 then
        { st2 with
          index := updAt fr.2 (fun d => aggregate_two_row c.schema t d) st2.index,
          ev := st2.ev ++ [Ev.aggE] }
      else
        { st2 with
          tableLive := st2.tableLive + c.schema.schemaSize + t.varLen,
          aggDurable := st2.aggDurable + st2.aggScratch,
          aggScratch := 0,
          index := insertAt fr.2 t st2.index,
          ev := st2.ev ++ [Ev.allocTableE, Ev.acquireDataE, Ev.insertHintE] }
    { st3 with
      bufferLive := 0,
      aggScratch := 0,
      ev := st3.ev ++ [Ev.clearBufE, Ev.clearScratchE] }

/-- A sequence of `insert` calls. -/
def insertAll (c : MemTableCfg) (st : MemTableState) (rs : List Row) :
    MemTableState :=
  rs.foldl (insert c) st

end MemTable

/-- The rows an ordered traversal of the finalized memtable yields: each
skip-list entry finalized in place (`flush` fallback loop, lines 137-143, and
`Iterator::get_current_row`, lines 175-180). -/
def flushRows (s : Schema) (st : MemTableState) : List Row :=
  st.index.map (agg_finalize_row s)

/-! ## Flush, close, iterator -/

/-- The statuses `memtable.cpp` distinguishes.  `NotImplemented` is
`Status::OLAPInternalError(OLAP_ERR_FUNC_NOT_IMPLEMENTED)` (line 134). -/
inductive Status where
  | OK
  | NotImplemented
  | MemoryLimitExceeded
  | Err (code : Nat)
deriving DecidableEq, Repr

/-- The row-set writer collaborator, as the statuses its three entry points
return (spec §6; `RowsetWriter` is opaque to `memtable.cpp`). -/
structure Writer where
  fsm : Status
  addRow : Row → Status
  wflush : Status

/-- A call into the row-set writer, recorded in order. -/
inductive WEv where
  | fsmCall
  | addRowCall (r : Row)
  | wflushCall
deriving DecidableEq, Repr

/-- The fallback streaming loop of `flush` (lines 137-143): feed each
finalized row to `add_row`, stopping at the first non-OK status
(`RETURN_NOT_OK`, line 142). -/
def addRowLoop (w : Writer) : List Row → Status × List WEv
  | [] => (Status.OK, [])
  | r :: rs =>
    match w.addRow r with
    | Status.OK =>
      let p := addRowLoop w rs
      (p.1, WEv.addRowCall r :: p.2)
    | e => (e, [WEv.addRowCall r])

/-- `MemTable::flush` (lines 127-154): call `flush_single_memtable`; on the
distinguished `NotImplemented` status run the fallback loop over the skip
list in order and then the writer's `flush`; any other non-OK status is
returned as is; otherwise return OK. -/
def flushT (s : Schema) (w : Writer) (st : MemTableState) :
    Status × List WEv :=
  if w.fsm = Status.NotImplemented then
    if (addRowLoop w (flushRows s st)).1 = Status.OK then
      if w.wflush = Status.OK then
        (Status.OK, WEv.fsmCall ::
          ((addRowLoop w (flushRows s st)).2 ++ [WEv.wflushCall]))
      else
        (w.wflush, WEv.fsmCall ::
          ((addRowLoop w (flushRows s st)).2 ++ [WEv.wflushCall]))
    else
      ((addRowLoop w (flushRows s st)).1,
        WEv.fsmCall :: (addRowLoop w (flushRows s st)).2)
  else if w.fsm = Status.OK then
    (Status.OK, [WEv.fsmCall])
  else
    (w.fsm, [WEv.fsmCall])

namespace MemTable

/-- `MemTable::close` (lines 156-158): the body is exactly `return flush();`.
The third component is the state after the call — `close` does not touch the
arenas; their memory is returned only by the destructor. -/
def close (s : Schema) (w : Writer) (st : MemTableState) :
    Status × List WEv × MemTableState :=
  ((flushT s w st).1, (flushT s w st).2, st)

/-- Modelled from the spec: `close()` is "equivalent to `flush()` followed by
release of both arenas" (§4.6) — after it, the buffer and table arenas'
memory has been returned. -/
def closeSpec (s : Schema) (w : Writer) (st : MemTableState) :
    Status × List WEv × MemTableState :=
  ((flushT s w st).1, (flushT s w st).2,
    { st with bufferLive := 0, bufferHigh := 0, tableLive := 0 })

end MemTable

/-- `MemTable::Iterator` position (lines 160-180); the underlying skip-list
iterator is a cursor into the ordered contents. -/
structure MIter where
  pos : Nat
deriving DecidableEq, Repr

namespace Iterator

/-- `Iterator::seek_to_first` (lines 163-165). -/
def seek_to_first : MIter := ⟨0⟩

/-- `Iterator::valid` (lines 167-169). -/
def valid (st : MemTableState) (it : MIter) : Bool :=
  it.pos < st.index.length

/-- `Iterator::next` (lines 171-173): advance the cursor; the memtable state
(second component) is untouched — the body is exactly `_it.Next();`. -/
def next (st : MemTableState) (it : MIter) : MIter × MemTableState :=
  (⟨it.pos + 1⟩, st)

/-- Modelled from the spec: "Advancing the iterator calls `finalize` lazily on
the current row" (§4.6) — an advance that also finalizes the row it leaves. -/
def nextSpec (s : Schema) (st : MemTableState) (it : MIter) :
    MIter × MemTableState :=
  (⟨it.pos + 1⟩, { st with index := updAt it.pos (agg_finalize_row s) st.index })

/-- `Iterator::get_current_row` (lines 175-180): finalize the current
skip-list row in place (`agg_finalize_row` into the table arena) and return
it. -/
def get_current_row (s : Schema) (st : MemTableState) (it : MIter) :
    Row × MemTableState :=
  (agg_finalize_row s (st.index.getD it.pos row0),
   { st with index := updAt it.pos (agg_finalize_row s) st.index })

end Iterator

/-! ## Insert under a memory limit

`MemTable::insert` returns `void`; allocation failure lives in `MemPool`,
which is not in the snapshot.  `insertF` wraps `insert` with the failure
behaviour of spec §4.1/§4.6: an arena growth that would push the tracker's
usage over the limit is denied and surfaces as `MemoryLimitExceeded`.  The
row counter is still incremented first, as in the source (line 69). -/

/-- Bytes currently accounted to the memtable's tracker. -/
def trackerUsage (st : MemTableState) : Nat := st.bufferLive + st.tableLive

namespace MemTable

/-- Modelled from the spec: `insert` under a tracker limit (§4.1 failure
model applied to the source's allocation points).  `_rows++` precedes the
first allocation, exactly as in the source (line 69); a denied allocation
leaves the index untouched. -/
def insertF (c : MemTableCfg) (limit : Nat) (st : MemTableState) (t : Row) :
    Status × MemTableState :=
  let n := c.schema.schemaSize + t.varLen
  if trackerUsage st + n ≤ limit then
    if c.keysType = KeysType.DUP_KEYS then
      (Status.OK, insert c st t)
    else if (findRow c.cmp t.key st.index).1 then
      (Status.OK, insert c st t)
    else if trackerUsage st + n + n ≤ limit then
      (Status.OK, insert c st t)
    else
      (Status.MemoryLimitExceeded,
        { st with
          rows := st.rows + 1,
          bufferLive := st.bufferLive + n,
          bufferHigh := max st.bufferHigh (st.bufferLive + n),
          aggScratch := st.aggScratch + t.aggObjs,
          ev := st.ev ++ [Ev.allocBufE, Ev.findE] })
  else
    (Status.MemoryLimitExceeded, { st with rows := st.rows + 1 })

/-- A sequence of limit-checked inserts (the resulting states). -/
def insertAllF (c : MemTableCfg) (limit : Nat) (st : MemTableState)
    (rs : List Row) : MemTableState :=
  rs.foldl (fun s2 r => (insertF c limit s2 r).2) st

end MemTable

/-! ## Order predicates on the index -/

/-- Strictly below under the comparator (keys strictly increasing). -/
def rowLT (cmp : List Int → List Int → Ordering) (a b : Row) : Prop :=
  cmp a.key b.key = Ordering.lt

/-- Not above under the comparator (keys non-decreasing). -/
def rowLE (cmp : List Int → List Int → Ordering) (a b : Row) : Prop :=
  cmp a.key b.key ≠ Ordering.gt

/-- The reject-duplicates index invariant: entries strictly increasing. -/
abbrev StrictSorted (cmp : List Int → List Int → Ordering) (l : List Row) :
    Prop :=
  l.Pairwise (rowLT cmp)

/-- The allow-duplicates index invariant: entries non-decreasing. -/
abbrev SortedLE (cmp : List Int → List Int → Ordering) (l : List Row) : Prop :=
  l.Pairwise (rowLE cmp)

theorem strictSorted_sortedLE {cmp : List Int → List Int → Ordering}
    {l : List Row} (h : StrictSorted cmp l) : SortedLE cmp l :=
  h.imp (fun hab => by simp [rowLE, rowLT] at *; simp [hab])

/-! ## Key preservation of the aggregator -/

theorem agg_update_row_key (s : Schema) (dst src : Row) :
    (agg_update_row s dst src).key = dst.key := rfl

theorem agg_update_row_with_sequence_key (s : Schema) (dst src : Row)
    (i : Nat) : (agg_update_row_with_sequence s dst src i).key = dst.key := by
  unfold agg_update_row_with_sequence
  split <;> rfl

theorem aggregate_two_row_key (s : Schema) (srcRow dstRow : Row) :
    (aggregate_two_row s srcRow dstRow).key = dstRow.key := by
  unfold aggregate_two_row
  split
  · exact agg_update_row_with_sequence_key s dstRow srcRow s.sequenceColIdx
  · rfl

theorem agg_finalize_row_key (s : Schema) (r : Row) :
    (agg_finalize_row s r).key = r.key := rfl

/-! ## Basic facts about `insertAt` and `updAt` -/

@[simp] theorem insertAt_nil (n : Nat) (r : Row) : insertAt n r [] = [r] := by
  simp [insertAt]

@[simp] theorem insertAt_zero_cons (r x : Row) (xs : List Row) :
    insertAt 0 r (x :: xs) = r :: x :: xs := by
  simp [insertAt]

@[simp] theorem insertAt_succ_cons (n : Nat) (r x : Row) (xs : List Row) :
    insertAt (n + 1) r (x :: xs) = x :: insertAt n r xs := by
  simp [insertAt]

@[simp] theorem updAt_nil (n : Nat) (f : Row → Row) : updAt n f [] = [] := by
  simp [updAt]

@[simp] theorem updAt_zero_cons (f : Row → Row) (x : Row) (xs : List Row) :
    updAt 0 f (x :: xs) = f x :: xs := by
  simp [updAt]

@[simp] theorem updAt_succ_cons (n : Nat) (f : Row → Row) (x : Row)
    (xs : List Row) : updAt (n + 1) f (x :: xs) = x :: updAt n f xs := by
  simp [updAt]

theorem insertAt_length : ∀ (n : Nat) (r : Row) (l : List Row),
    (insertAt n r l).length = l.length + 1
  | _, _, [] => by simp
  | 0, _, _ :: _ => by simp
  | n + 1, r, x :: xs => by
    simp [insertAt_length n r xs]

theorem mem_insertAt {y : Row} : ∀ (n : Nat) (r : Row) (l : List Row),
    y ∈ insertAt n r l ↔ y = r ∨ y ∈ l
  | _, r, [] => by simp
  | 0, r, x :: xs => by simp
  | n + 1, r, x :: xs => by
    simp [mem_insertAt n r xs]
    tauto

theorem insertAt_perm : ∀ (n : Nat) (r : Row) (l : List Row),
    List.Perm (insertAt n r l) (r :: l)
  | _, r, [] => by simp
  | 0, r, x :: xs => by simp
  | n + 1, r, x :: xs => by
    rw [insertAt_succ_cons]
    exact List.Perm.trans (List.Perm.cons x (insertAt_perm n r xs))
      (List.Perm.swap r x xs)

theorem updAt_length : ∀ (n : Nat) (f : Row → Row) (l : List Row),
    (updAt n f l).length = l.length
  | _, _, [] => by simp
  | 0, _, _ :: _ => by simp
  | n + 1, f, x :: xs => by
    simp [updAt_length n f xs]

theorem mem_updAt {y : Row} : ∀ (n : Nat) (f : Row → Row) (l : List Row),
    y ∈ updAt n f l → (∃ z ∈ l, y = f z) ∨ y ∈ l
  | _, _, [], h => by simp at h
  | 0, f, x :: xs, h => by
    rw [updAt_zero_cons] at h
    rcases List.mem_cons.mp h with h1 | h1
    · exact Or.inl ⟨x, List.mem_cons_self x xs, h1⟩
    · exact Or.inr (List.mem_cons_of_mem x h1)
  | n + 1, f, x :: xs, h => by
    rw [updAt_succ_cons] at h
    rcases List.mem_cons.mp h with h1 | h1
    · exact Or.inr (h1 ▸ List.mem_cons_self x xs)
    · rcases mem_updAt n f xs h1 with ⟨z, hz, hy⟩ | h2
      · exact Or.inl ⟨z, List.mem_cons_of_mem x hz, hy⟩
      · exact Or.inr (List.mem_cons_of_mem x h2)

/-! ## Facts about `findRow` and `lookupKey` -/

@[simp] theorem findRow_nil (cmp : List Int → List Int → Ordering)
    (k : List Int) : findRow cmp k [] = (false, 0) := rfl

theorem findRow_cons_lt {cmp : List Int → List Int → Ordering}
    {k : List Int} {x : Row} (xs : List Row)
    (h : cmp x.key k = Ordering.lt) :
    findRow cmp k (x :: xs) = ((findRow cmp k xs).1, (findRow cmp k xs).2 + 1) := by
  simp [findRow, h]

theorem findRow_cons_ge {cmp : List Int → List Int → Ordering}
    {k : List Int} {x : Row} (xs : List Row)
    (h : ¬ cmp x.key k = Ordering.lt) :
    findRow cmp k (x :: xs) = (cmp x.key k == Ordering.eq, 0) := by
  simp [findRow, h]

@[simp] theorem lookupKey_nil (cmp : List Int → List Int → Ordering)
    (k : List Int) : lookupKey cmp k [] = none := rfl

theorem lookupKey_cons_eq {cmp : List Int → List Int → Ordering}
    {k : List Int} {x : Row} (xs : List Row)
    (h : cmp x.key k = Ordering.eq) :
    lookupKey cmp k (x :: xs) = some x := by
  unfold lookupKey
  rw [List.find?_cons_of_pos _ (by rw [h]; decide)]

theorem lookupKey_cons_ne {cmp : List Int → List Int → Ordering}
    {k : List Int} {x : Row} (xs : List Row)
    (h : ¬ cmp x.key k = Ordering.eq) :
    lookupKey cmp k (x :: xs) = lookupKey cmp k xs := by
  unfold lookupKey
  rw [List.find?_cons_of_neg _ ?_]
  cases hc : cmp x.key k
  · decide
  · exact absurd hc h
  · decide

theorem lookupKey_eq_none {cmp : List Int → List Int → Ordering}
    {k : List Int} {l : List Row}
    (h : ∀ x ∈ l, ¬ cmp x.key k = Ordering.eq) : lookupKey cmp k l = none := by
  unfold lookupKey
  rw [List.find?_eq_none]
  intro x hx
  cases hc : cmp x.key k
  · decide
  · exact absurd hc (h x hx)
  · decide

/-! ## The non-duplicate insert path on the index -/

/-- The effect of the `AGG`/`UNIQUE` branch of `insert` (lines 90-99) on the
skip-list contents: probe with `Find`; when found, aggregate the arriving row
into the slot the hint points at; else insert the row at the hint. -/
def idxStep (s : Schema) (cmp : List Int → List Int → Ordering)
    (l : List Row) (r : Row) : List Row :=
  if (findRow cmp r.key l).1 then
    updAt (findRow cmp r.key l).2 (fun d => aggregate_two_row s r d) l
  else
    insertAt (findRow cmp r.key l).2 r l

theorem mem_idxStep {s : Schema} {cmp : List Int → List Int → Ordering}
    {l : List Row} {r y : Row} (h : y ∈ idxStep s cmp l r) :
    y = r ∨ y ∈ l ∨ ∃ z ∈ l, y = aggregate_two_row s r z := by
  unfold idxStep at h
  by_cases hf : (findRow cmp r.key l).1
  · rw [if_pos hf] at h
    rcases mem_updAt _ _ _ h with ⟨z, hz, hy⟩ | h2
    · exact Or.inr (Or.inr ⟨z, hz, hy⟩)
    · exact Or.inr (Or.inl h2)
  · rw [if_neg hf] at h
    rcases (mem_insertAt _ _ _).mp h with h1 | h1
    · exact Or.inl h1
    · exact Or.inr (Or.inl h1)

/-- One `AGG`/`UNIQUE` insert keeps the index strictly sorted, and its effect
on key lookup is: the probe key's slot becomes the aggregation of the arriving
row into the old slot (or the arriving row itself when the key is new), and
every other key's slot is untouched. -/
theorem idxStep_spec {cmp : List Int → List Int → Ordering} (hL : LawfulCmp cmp)
    (s : Schema) (r : Row) :
    ∀ (l : List Row), StrictSorted cmp l →
      StrictSorted cmp (idxStep s cmp l r) ∧
      ∀ (k : List Int), lookupKey cmp k (idxStep s cmp l r) =
        if cmp r.key k = Ordering.eq then
          some (match lookupKey cmp k l with
            | none => r
            | some d => aggregate_two_row s r d)
        else lookupKey cmp k l := by
  intro l
  induction l with
  | nil =>
    intro _
    have hstep : idxStep s cmp [] r = [r] := by
      unfold idxStep
      simp
    constructor
    · rw [hstep]
      exact List.pairwise_singleton _ _
    · intro k
      rw [hstep]
      by_cases hrk : cmp r.key k = Ordering.eq
      · rw [lookupKey_cons_eq _ hrk, if_pos hrk]
        rfl
      · rw [lookupKey_cons_ne _ hrk, if_neg hrk]
  | cons x xs ih =>
    intro hs
    obtain ⟨hx, hxs⟩ := List.pairwise_cons.mp hs
    by_cases hlt : cmp x.key r.key = Ordering.lt
    · -- the head is strictly below the probe key: recurse into the tail
      have hstep : idxStep s cmp (x :: xs) r = x :: idxStep s cmp xs r := by
        unfold idxStep
        rw [findRow_cons_lt xs hlt]
        by_cases hb : (findRow cmp r.key xs).1 <;> simp [hb]
      obtain ⟨ihs, ihl⟩ := ih hxs
      constructor
      · rw [hstep]
        refine List.pairwise_cons.mpr ⟨?_, ihs⟩
        intro y hy
        rcases mem_idxStep hy with h1 | h1 | ⟨z, hz, hy2⟩
        · subst h1; exact hlt
        · exact hx y h1
        · subst hy2
          show cmp x.key (aggregate_two_row s r z).key = Ordering.lt
          rw [aggregate_two_row_key]
          exact hx z hz
      · intro k
        rw [hstep]
        by_cases hpx : cmp x.key k = Ordering.eq
        · have hrk : ¬ cmp r.key k = Ordering.eq := by
            intro hrk
            have h2 : cmp k r.key = Ordering.eq := hL.eq_symm hrk
            have h3 : cmp x.key k = cmp x.key r.key := hL.eq_compat_right h2 x.key
            have h4 : cmp x.key k = Ordering.lt := h3.trans hlt
            rw [hpx] at h4
            exact absurd h4 (by decide)
          rw [lookupKey_cons_eq _ hpx, if_neg hrk, lookupKey_cons_eq _ hpx]
        · rw [lookupKey_cons_ne _ hpx, ihl k, lookupKey_cons_ne _ hpx]
    · by_cases he : cmp x.key r.key = Ordering.eq
      · -- found at the head: aggregate in place
        have hfr : findRow cmp r.key (x :: xs) = (true, 0) := by
          rw [findRow_cons_ge xs hlt, he]
          decide
        have hstep : idxStep s cmp (x :: xs) r =
            aggregate_two_row s r x :: xs := by
          unfold idxStep
          rw [hfr]
          simp
        constructor
        · rw [hstep]
          refine List.pairwise_cons.mpr ⟨?_, hxs⟩
          intro y hy
          show cmp (aggregate_two_row s r x).key y.key = Ordering.lt
          rw [aggregate_two_row_key]
          exact hx y hy
        · intro k
          rw [hstep]
          by_cases hpx : cmp x.key k = Ordering.eq
          · have hgxk : cmp (aggregate_two_row s r x).key k = Ordering.eq := by
              rw [aggregate_two_row_key]; exact hpx
            have hrk : cmp r.key k = Ordering.eq := by
              have h1 : cmp r.key x.key = Ordering.eq := hL.eq_symm he
              have h2 : cmp r.key k = cmp x.key k := hL.eq_compat_left h1 k
              rw [h2, hpx]
            rw [lookupKey_cons_eq _ hgxk, if_pos hrk, lookupKey_cons_eq _ hpx]
          · have hgxk : ¬ cmp (aggregate_two_row s r x).key k = Ordering.eq := by
              rw [aggregate_two_row_key]; exact hpx
            have hrk : ¬ cmp r.key k = Ordering.eq := by
              intro hrk
              have h1 : cmp r.key x.key = Ordering.eq := hL.eq_symm he
              have h2 : cmp r.key k = cmp x.key k := hL.eq_compat_left h1 k
              rw [hrk] at h2
              exact hpx h2.symm
            rw [lookupKey_cons_ne _ hgxk, if_neg hrk, lookupKey_cons_ne _ hpx]
      · -- the head is strictly above: the probe key is new, insert before
        have hgt : cmp x.key r.key = Ordering.gt := by
          cases hc : cmp x.key r.key
          · exact absurd hc hlt
          · exact absurd hc he
          · rfl
        have hfr : findRow cmp r.key (x :: xs) = (false, 0) := by
          rw [findRow_cons_ge xs hlt, hgt]
          decide
        have hstep : idxStep s cmp (x :: xs) r = r :: x :: xs := by
          unfold idxStep
          rw [hfr]
          simp
        have hrx : cmp r.key x.key = Ordering.lt := hL.gt_iff_lt.mp hgt
        constructor
        · rw [hstep]
          refine List.pairwise_cons.mpr ⟨?_, hs⟩
          intro y hy
          rcases List.mem_cons.mp hy with h1 | h1
          · subst h1; exact hrx
          · exact hL.lt_trans hrx (hx y h1)
        · intro k
          rw [hstep]
          by_cases hrk : cmp r.key k = Ordering.eq
          · have hnone : lookupKey cmp k (x :: xs) = none := by
              apply lookupKey_eq_none
              intro y hy hyk
              have hky : cmp k y.key = Ordering.lt := by
                rcases List.mem_cons.mp hy with h1 | h1
                · have h2 : cmp k x.key = cmp r.key x.key :=
                    hL.eq_compat_left (hL.eq_symm hrk) x.key
                  rw [h1, h2]; exact hrx
                · have h2 : cmp k y.key = cmp r.key y.key :=
                    hL.eq_compat_left (hL.eq_symm hrk) y.key
                  rw [h2]
                  exact hL.lt_trans hrx (hx y h1)
              have h3 : cmp y.key k = Ordering.gt := hL.gt_iff_lt.mpr hky
              rw [hyk] at h3
              exact absurd h3 (by decide)
            rw [lookupKey_cons_eq _ hrk, if_pos hrk, hnone]
          · rw [lookupKey_cons_ne _ hrk, if_neg hrk]

/-! ## Characterizations of one `insert` call -/

theorem insert_nonDup_eq (c : MemTableCfg) (st : MemTableState) (t : Row)
    (hkt : c.keysType ≠ KeysType.DUP_KEYS) :
    MemTable.insert c st t =
      { rows := st.rows + 1,
        index := idxStep c.schema c.cmp st.index t,
        bufferLive := 0,
        bufferHigh :=
          max st.bufferHigh (st.bufferLive + c.schema.schemaSize + t.varLen),
        tableLive :=
          if (findRow c.cmp t.key st.index).1 then st.tableLive
          else st.tableLive + c.schema.schemaSize + t.varLen,
        aggScratch := 0,
        aggDurable :=
          if (findRow c.cmp t.key st.index).1 then st.aggDurable
          else st.aggDurable + (st.aggScratch + t.aggObjs),
        ev := st.ev ++ [Ev.allocBufE, Ev.findE] ++
          (if (findRow c.cmp t.key st.index).1 then [Ev.aggE]
           else [Ev.allocTableE, Ev.acquireDataE, Ev.insertHintE]) ++
          [Ev.clearBufE, Ev.clearScratchE] } := by
  unfold MemTable.insert idxStep
  rw [if_neg hkt]
  by_cases hf : (findRow c.cmp t.key st.index).1 <;> simp [hf]

theorem insert_dup_eq (c : MemTableCfg) (st : MemTableState) (t : Row)
    (hkt : c.keysType = KeysType.DUP_KEYS) :
    MemTable.insert c st t =
      { st with
        rows := st.rows + 1,
        tableLive := st.tableLive + c.schema.schemaSize + t.varLen,
        aggScratch := st.aggScratch + t.aggObjs,
        index := insertAt (upperB c.cmp t.key st.index) t st.index,
        ev := st.ev ++ [Ev.allocTableE, Ev.insertE] } := by
  unfold MemTable.insert
  rw [if_pos hkt]

theorem insert_rows (c : MemTableCfg) (st : MemTableState) (t : Row) :
    (MemTable.insert c st t).rows = st.rows + 1 := by
  by_cases hkt : c.keysType = KeysType.DUP_KEYS
  · rw [insert_dup_eq c st t hkt]
  · rw [insert_nonDup_eq c st t hkt]

/-! ## The reference aggregation over the input sequence -/

/-- The value the memtable is specified to hold for key `k` after a sequence
of inserts under `AGG`/`UNIQUE`: fold the key's arrivals in order, seeding
with the first arrival and aggregating each later one into the accumulator. -/
def specAgg (s : Schema) (cmp : List Int → List Int → Ordering)
    (k : List Int) (inputs : List Row) : Option Row :=
  inputs.foldl
    (fun acc r =>
      if cmp r.key k = Ordering.eq then
        some (match acc with
          | none => r
          | some d => aggregate_two_row s r d)
      else acc)
    none

theorem specAgg_append_one (s : Schema) (cmp : List Int → List Int → Ordering)
    (k : List Int) (pre : List Row) (r : Row) :
    specAgg s cmp k (pre ++ [r]) =
      if cmp r.key k = Ordering.eq then
        some (match specAgg s cmp k pre with
          | none => r
          | some d => aggregate_two_row s r d)
      else specAgg s cmp k pre := by
  unfold specAgg
  rw [List.foldl_append]
  rfl

/-- Fold-level invariant of the `AGG`/`UNIQUE` path: starting from a strictly
sorted index whose lookups agree with `specAgg` over the inputs seen so far,
any further input sequence keeps the index strictly sorted and the lookups in
agreement. -/
theorem insertAll_nonDup_inv (c : MemTableCfg) (hL : LawfulCmp c.cmp)
    (hkt : c.keysType ≠ KeysType.DUP_KEYS) :
    ∀ (inputs : List Row) (st : MemTableState) (pre : List Row),
      StrictSorted c.cmp st.index →
      (∀ k, lookupKey c.cmp k st.index = specAgg c.schema c.cmp k pre) →
      StrictSorted c.cmp (MemTable.insertAll c st inputs).index ∧
      ∀ k, lookupKey c.cmp k (MemTable.insertAll c st inputs).index =
        specAgg c.schema c.cmp k (pre ++ inputs)
  | [], st, pre, hs, hlk => by
    constructor
    · simpa [MemTable.insertAll] using hs
    · intro k
      simpa [MemTable.insertAll] using hlk k
  | r :: rs, st, pre, hs, hlk => by
    have hone : MemTable.insertAll c st (r :: rs) =
        MemTable.insertAll c (MemTable.insert c st r) rs := rfl
    have hidx : (MemTable.insert c st r).index = idxStep c.schema c.cmp st.index r := by
      rw [insert_nonDup_eq c st r hkt]
    obtain ⟨hs2, hlk2⟩ := idxStep_spec hL c.schema r st.index hs
    have hlk3 : ∀ k, lookupKey c.cmp k (MemTable.insert c st r).index =
        specAgg c.schema c.cmp k (pre ++ [r]) := by
      intro k
      rw [hidx, hlk2 k, specAgg_append_one]
      by_cases hrk : c.cmp r.key k = Ordering.eq
      · rw [if_pos hrk, if_pos hrk, hlk k]
      · rw [if_neg hrk, if_neg hrk, hlk k]
    have hmain := insertAll_nonDup_inv c hL hkt rs (MemTable.insert c st r)
      (pre ++ [r]) (hidx ▸ hs2) hlk3
    rw [hone]
    refine ⟨hmain.1, fun k => ?_⟩
    rw [hmain.2 k]
    simp

/-! ## The duplicate-mode insert position -/

@[simp] theorem ordBeq_eq_eq : (Ordering.eq == Ordering.eq) = true := by decide

@[simp] theorem ordBeq_lt_eq : (Ordering.lt == Ordering.eq) = false := by decide

@[simp] theorem ordBeq_gt_eq : (Ordering.gt == Ordering.eq) = false := by decide

@[simp] theorem upperB_nil (cmp : List Int → List Int → Ordering)
    (k : List Int) : upperB cmp k [] = 0 := rfl

theorem upperB_cons_gt {cmp : List Int → List Int → Ordering} {k : List Int}
    {x : Row} (xs : List Row) (h : cmp x.key k = Ordering.gt) :
    upperB cmp k (x :: xs) = 0 := by
  simp [upperB, h]

theorem upperB_cons_le {cmp : List Int → List Int → Ordering} {k : List Int}
    {x : Row} (xs : List Row) (h : ¬ cmp x.key k = Ordering.gt) :
    upperB cmp k (x :: xs) = upperB cmp k xs + 1 := by
  simp [upperB, h]

/-- Duplicate-mode insertion keeps the index non-decreasing. -/
theorem sortedLE_insertAt_upperB {cmp : List Int → List Int → Ordering}
    (hL : LawfulCmp cmp) (r : Row) :
    ∀ (l : List Row), SortedLE cmp l →
      SortedLE cmp (insertAt (upperB cmp r.key l) r l)
  | [], _ => by
    simp
  | x :: xs, hs => by
    obtain ⟨hx, hxs⟩ := List.pairwise_cons.mp hs
    by_cases hgt : cmp x.key r.key = Ordering.gt
    · rw [upperB_cons_gt xs hgt, insertAt_zero_cons]
      have hrx : cmp r.key x.key = Ordering.lt := hL.gt_iff_lt.mp hgt
      refine List.pairwise_cons.mpr ⟨?_, hs⟩
      intro y hy
      rcases List.mem_cons.mp hy with h1 | h1
      · rw [h1]
        exact hL.lt_ne_gt hrx
      · exact hL.lt_ne_gt (hL.lt_of_lt_of_le hrx (hx y h1))
    · rw [upperB_cons_le xs hgt, insertAt_succ_cons]
      refine List.pairwise_cons.mpr
        ⟨?_, sortedLE_insertAt_upperB hL r xs hxs⟩
      intro y hy
      rcases (mem_insertAt _ _ _).mp hy with h1 | h1
      · rw [h1]
        exact hgt
      · exact hx y h1

/-- Effect of a duplicate-mode insert on the rows matching a key: the new row
lands after every existing match of that key (and matches of other keys are
untouched). -/
theorem filter_insertAt_upperB {cmp : List Int → List Int → Ordering}
    (hL : LawfulCmp cmp) (r : Row) (k : List Int) :
    ∀ (l : List Row), SortedLE cmp l →
      (insertAt (upperB cmp r.key l) r l).filter
          (fun x => cmp x.key k == Ordering.eq) =
        l.filter (fun x => cmp x.key k == Ordering.eq) ++
          (if cmp r.key k = Ordering.eq then [r] else [])
  | [], _ => by
    by_cases hrk : cmp r.key k = Ordering.eq
    · simp [List.filter_cons, hrk]
    · cases hc : cmp r.key k
      · simp [List.filter_cons, hc]
      · exact absurd hc hrk
      · simp [List.filter_cons, hc]
  | x :: xs, hs => by
    obtain ⟨hx, hxs⟩ := List.pairwise_cons.mp hs
    by_cases hgt : cmp x.key r.key = Ordering.gt
    · rw [upperB_cons_gt xs hgt, insertAt_zero_cons]
      have hrx : cmp r.key x.key = Ordering.lt := hL.gt_iff_lt.mp hgt
      by_cases hrk : cmp r.key k = Ordering.eq
      · have hnil : (x :: xs).filter (fun y => cmp y.key k == Ordering.eq) = [] := by
          rw [List.filter_eq_nil_iff]
          intro y hy
          have hky : cmp k y.key = Ordering.lt := by
            have h2 : cmp k y.key = cmp r.key y.key :=
              hL.eq_compat_left (hL.eq_symm hrk) y.key
            rcases List.mem_cons.mp hy with h1 | h1
            · rw [h2, h1]
              exact hrx
            · rw [h2]
              exact hL.lt_of_lt_of_le hrx (hx y h1)
          have h3 : cmp y.key k = Ordering.gt := hL.gt_iff_lt.mpr hky
          rw [h3]
          decide
        rw [List.filter_cons, if_pos (by rw [hrk]; decide), hnil, if_pos hrk]
        rfl
      · rw [List.filter_cons,
          if_neg (by cases hc : cmp r.key k
                     · decide
                     · exact absurd hc hrk
                     · decide),
          if_neg hrk, List.append_nil]
    · rw [upperB_cons_le xs hgt, insertAt_succ_cons, List.filter_cons,
        List.filter_cons]
      by_cases hpx : (cmp x.key k == Ordering.eq) = true
      · rw [if_pos hpx, if_pos hpx, filter_insertAt_upperB hL r k xs hxs,
          List.cons_append]
      · rw [if_neg hpx, if_neg hpx, filter_insertAt_upperB hL r k xs hxs]

/-- Fold-level facts of the `DUP` path: the index stays non-decreasing, is a
permutation of everything inserted, and the matches of every key keep their
arrival order. -/
theorem insertAll_dup_inv (c : MemTableCfg) (hL : LawfulCmp c.cmp)
    (hkt : c.keysType = KeysType.DUP_KEYS) :
    ∀ (inputs : List Row) (st : MemTableState),
      SortedLE c.cmp st.index →
      SortedLE c.cmp (MemTable.insertAll c st inputs).index ∧
      List.Perm (MemTable.insertAll c st inputs).index (inputs ++ st.index) ∧
      (MemTable.insertAll c st inputs).rows = st.rows + inputs.length ∧
      ∀ k, (MemTable.insertAll c st inputs).index.filter
          (fun x => c.cmp x.key k == Ordering.eq) =
        st.index.filter (fun x => c.cmp x.key k == Ordering.eq) ++
          inputs.filter (fun x => c.cmp x.key k == Ordering.eq)
  | [], st, hs => by
    refine ⟨hs, by simp [MemTable.insertAll], by simp [MemTable.insertAll],
      fun k => by simp [MemTable.insertAll]⟩
  | r :: rs, st, hs => by
    have hone : MemTable.insertAll c st (r :: rs) =
        MemTable.insertAll c (MemTable.insert c st r) rs := rfl
    have hins := insert_dup_eq c st r hkt
    have hidx : (MemTable.insert c st r).index =
        insertAt (upperB c.cmp r.key st.index) r st.index := by rw [hins]
    have hs2 : SortedLE c.cmp (MemTable.insert c st r).index := by
      rw [hidx]
      exact sortedLE_insertAt_upperB hL r st.index hs
    obtain ⟨ha, hb, hc2, hd⟩ := insertAll_dup_inv c hL hkt rs
      (MemTable.insert c st r) hs2
    rw [hone]
    refine ⟨ha, ?_, ?_, ?_⟩
    · -- permutation
      have hstep : List.Perm (MemTable.insert c st r).index (r :: st.index) := by
        rw [hidx]
        exact insertAt_perm _ r st.index
      have h4 : List.Perm (rs ++ (MemTable.insert c st r).index)
          (rs ++ (r :: st.index)) := List.Perm.append_left rs hstep
      have h5 : List.Perm (rs ++ (r :: st.index)) (r :: (rs ++ st.index)) :=
        List.perm_middle
      exact hb.trans (h4.trans h5)
    · rw [hc2, insert_rows]
      simp [List.length_cons]
      omega
    · intro k
      rw [hd k, hidx, filter_insertAt_upperB hL r k st.index hs,
        List.filter_cons]
      by_cases hrk : c.cmp r.key k = Ordering.eq
      · rw [if_pos hrk, if_pos (by rw [hrk]; decide)]
        simp
      · rw [if_neg hrk,
          if_neg (by cases hc3 : c.cmp r.key k
                     · decide
                     · exact absurd hc3 hrk
                     · decide)]
        simp

theorem ordBeq_true_iff {o : Ordering} :
    ((o == Ordering.eq) = true) ↔ o = Ordering.eq := by
  cases o <;> simp

/-! ## The winner of a key under `UNIQUE` with a sequence column -/

/-- One step of the reference aggregation (the body of `specAgg`). -/
def specAggStep (s : Schema) (cmp : List Int → List Int → Ordering)
    (k : List Int) (acc : Option Row) (r : Row) : Option Row :=
  if cmp r.key k = Ordering.eq then
    some (match acc with
      | none => r
      | some d => aggregate_two_row s r d)
  else acc

theorem specAgg_eq_foldl (s : Schema) (cmp : List Int → List Int → Ordering)
    (k : List Int) (inputs : List Row) :
    specAgg s cmp k inputs = inputs.foldl (specAggStep s cmp k) none := rfl

/-- Pick the later row when its sequence cell is at least the current best:
"maximum sequence value, ties resolved to the last arrival". -/
def winnerStep (i : Nat) (acc : Option Row) (r : Row) : Option Row :=
  match acc with
  | none => some r
  | some m => if seqOf i m ≤ seqOf i r then some r else some m

/-- The input row with the maximum sequence cell, ties to the last arrival. -/
def winnerBySeq (i : Nat) (l : List Row) : Option Row :=
  l.foldl (winnerStep i) none

theorem aggregate_two_row_vals_seq {s : Schema}
    (hseq : s.hasSequenceCol = true) (r d : Row) :
    (aggregate_two_row s r d).vals =
      if seqOf s.sequenceColIdx d ≤ seqOf s.sequenceColIdx r then r.vals
      else d.vals := by
  unfold aggregate_two_row agg_update_row_with_sequence
  rw [if_pos hseq]
  split <;> rfl

/-- Under `UNIQUE` with a sequence column, the reference aggregation for a key
carries exactly the value columns of the sequence winner among that key's
arrivals. -/
theorem foldl_specAgg_winner (s : Schema) (cmp : List Int → List Int → Ordering)
    (k : List Int) (hseq : s.hasSequenceCol = true) :
    ∀ (inputs : List Row) (acc1 acc2 : Option Row),
      Option.map Row.vals acc1 = Option.map Row.vals acc2 →
      Option.map Row.vals (inputs.foldl (specAggStep s cmp k) acc1) =
        Option.map Row.vals
          ((inputs.filter (fun x => cmp x.key k == Ordering.eq)).foldl
            (winnerStep s.sequenceColIdx) acc2)
  | [], acc1, acc2, h => by simpa using h
  | r :: rs, acc1, acc2, h => by
    rw [List.foldl_cons, List.filter_cons]
    by_cases hrk : cmp r.key k = Ordering.eq
    · rw [if_pos (ordBeq_true_iff.mpr hrk), List.foldl_cons]
      apply foldl_specAgg_winner s cmp k hseq rs
      unfold specAggStep winnerStep
      rw [if_pos hrk]
      cases acc1 with
      | none =>
        cases acc2 with
        | none => rfl
        | some m => exact Option.noConfusion h
      | some d =>
        cases acc2 with
        | none => exact Option.noConfusion h
        | some m =>
          have hv : d.vals = m.vals := Option.some.inj h
          have hseqeq : seqOf s.sequenceColIdx d = seqOf s.sequenceColIdx m := by
            unfold seqOf
            rw [hv]
          show Option.map Row.vals (some (aggregate_two_row s r d)) =
            Option.map Row.vals
              (if seqOf s.sequenceColIdx m ≤ seqOf s.sequenceColIdx r
               then some r else some m)
          by_cases hle : seqOf s.sequenceColIdx m ≤ seqOf s.sequenceColIdx r
          · rw [if_pos hle]
            simp [aggregate_two_row_vals_seq hseq, hseqeq, hle]
          · rw [if_neg hle]
            simp [aggregate_two_row_vals_seq hseq, hseqeq, hle, hv]
    · rw [if_neg (fun hb => hrk (ordBeq_true_iff.mp hb))]
      have hstep : specAggStep s cmp k acc1 r = acc1 := by
        unfold specAggStep
        rw [if_neg hrk]
      rw [hstep]
      exact foldl_specAgg_winner s cmp k hseq rs acc1 acc2 h

/-- The winner fold starting from `a` returns an element of `a :: l` whose
sequence cell bounds every candidate's. -/
theorem winner_foldl_spec (i : Nat) :
    ∀ (l : List Row) (a : Row),
      ∃ w, l.foldl (winnerStep i) (some a) = some w ∧
        (w = a ∨ w ∈ l) ∧ seqOf i a ≤ seqOf i w ∧
        ∀ x ∈ l, seqOf i x ≤ seqOf i w
  | [], a => ⟨a, rfl, Or.inl rfl, le_refl _, by simp⟩
  | r :: rs, a => by
    have hstep : winnerStep i (some a) r =
        if seqOf i a ≤ seqOf i r then some r else some a := rfl
    rw [List.foldl_cons, hstep]
    by_cases hle : seqOf i a ≤ seqOf i r
    · rw [if_pos hle]
      obtain ⟨w, hw, hmem, hge, hall⟩ := winner_foldl_spec i rs r
      refine ⟨w, hw, ?_, le_trans hle hge, ?_⟩
      · rcases hmem with h1 | h1
        · exact Or.inr (h1 ▸ List.mem_cons_self r rs)
        · exact Or.inr (List.mem_cons_of_mem r h1)
      · intro x hx
        rcases List.mem_cons.mp hx with h1 | h1
        · rw [h1]; exact hge
        · exact hall x h1
    · rw [if_neg hle]
      obtain ⟨w, hw, hmem, hge, hall⟩ := winner_foldl_spec i rs a
      refine ⟨w, hw, ?_, hge, ?_⟩
      · rcases hmem with h1 | h1
        · exact Or.inl h1
        · exact Or.inr (List.mem_cons_of_mem r h1)
      · intro x hx
        rcases List.mem_cons.mp hx with h1 | h1
        · rw [h1]
          omega
        · exact hall x h1

/-- The sequence winner of a non-empty candidate list exists, is a candidate,
and attains the maximum sequence cell. -/
theorem winnerBySeq_spec (i : Nat) (l : List Row) (hne : l ≠ []) :
    ∃ w, winnerBySeq i l = some w ∧ w ∈ l ∧
      ∀ x ∈ l, seqOf i x ≤ seqOf i w := by
  cases l with
  | nil => exact absurd rfl hne
  | cons a rs =>
    unfold winnerBySeq
    rw [List.foldl_cons]
    obtain ⟨w, hw, hmem, _, hall⟩ := winner_foldl_spec i rs a
    refine ⟨w, hw, ?_, ?_⟩
    · rcases hmem with h1 | h1
      · exact h1 ▸ List.mem_cons_self a rs
      · exact List.mem_cons_of_mem a h1
    · intro x hx
      rcases List.mem_cons.mp hx with h1 | h1
      · rw [h1]
        rcases winner_foldl_spec i rs a with ⟨w2, hw2, _, hge2, _⟩
        rw [hw] at hw2
        cases hw2
        exact hge2
      · exact hall x h1

/-! ## Facts about the flushed row sequence -/

theorem flushRows_length (s : Schema) (st : MemTableState) :
    (flushRows s st).length = st.index.length := by
  simp [flushRows]

theorem lookupKey_flushRows (s : Schema)
    (cmp : List Int → List Int → Ordering) (k : List Int)
    (st : MemTableState) :
    lookupKey cmp k (flushRows s st) =
      Option.map (agg_finalize_row s) (lookupKey cmp k st.index) := by
  unfold flushRows lookupKey
  rw [List.find?_map]
  have hp : ((fun r : Row => cmp r.key k == Ordering.eq) ∘ agg_finalize_row s)
      = (fun r : Row => cmp r.key k == Ordering.eq) := by
    funext r
    simp [Function.comp, agg_finalize_row_key]
  rw [hp]

theorem flushRows_pairwise {cmp : List Int → List Int → Ordering} (s : Schema)
    (st : MemTableState) (h : SortedLE cmp st.index) :
    (flushRows s st).Pairwise (rowLE cmp) := by
  unfold flushRows
  rw [List.pairwise_map]
  exact h.imp (fun hab => by simpa [rowLE, agg_finalize_row_key] using hab)

theorem flushRows_filter (s : Schema) (cmp : List Int → List Int → Ordering)
    (k : List Int) (st : MemTableState) :
    (flushRows s st).filter (fun x => cmp x.key k == Ordering.eq) =
      (st.index.filter (fun x => cmp x.key k == Ordering.eq)).map
        (agg_finalize_row s) := by
  unfold flushRows
  rw [List.filter_map]
  have hp : ((fun r : Row => cmp r.key k == Ordering.eq) ∘ agg_finalize_row s)
      = (fun r : Row => cmp r.key k == Ordering.eq) := by
    funext r
    simp [Function.comp, agg_finalize_row_key]
  rw [hp]

/-! ## The flush fallback loop -/

theorem addRowLoop_ok (w : Writer) :
    ∀ (rows : List Row), (∀ r ∈ rows, w.addRow r = Status.OK) →
      addRowLoop w rows = (Status.OK, rows.map WEv.addRowCall)
  | [], _ => rfl
  | r :: rs, h => by
    have hr : w.addRow r = Status.OK := h r (List.mem_cons_self r rs)
    have ih := addRowLoop_ok w rs (fun x hx => h x (List.mem_cons_of_mem r hx))
    unfold addRowLoop
    rw [hr, ih]
    rfl

theorem flushRows_getD (s : Schema) (st : MemTableState) (i : Nat)
    (h : i < st.index.length) :
    (flushRows s st).getD i row0 =
      agg_finalize_row s (st.index.getD i row0) := by
  unfold flushRows
  rw [List.getD_eq_getElem?_getD, List.getElem?_map,
    List.getD_eq_getElem?_getD, List.getElem?_eq_getElem h]
  rfl

/-! ## Buffer-arena accounting -/

/-- Largest out-of-band payload among a batch of rows. -/
def maxVarLen (l : List Row) : Nat :=
  l.foldr (fun r m => max r.varLen m) 0

theorem insertAll_buffer_bound (c : MemTableCfg)
    (hkt : c.keysType ≠ KeysType.DUP_KEYS) :
    ∀ (inputs : List Row) (st : MemTableState), st.bufferLive = 0 →
      (MemTable.insertAll c st inputs).bufferLive = 0 ∧
      (MemTable.insertAll c st inputs).bufferHigh ≤
        max st.bufferHigh (c.schema.schemaSize + maxVarLen inputs)
  | [], st, h0 => ⟨h0, Nat.le_max_left _ _⟩
  | r :: rs, st, h0 => by
    have hone : MemTable.insertAll c st (r :: rs) =
        MemTable.insertAll c (MemTable.insert c st r) rs := rfl
    have hb : (MemTable.insert c st r).bufferLive = 0 := by
      rw [insert_nonDup_eq c st r hkt]
    have hh : (MemTable.insert c st r).bufferHigh =
        max st.bufferHigh (st.bufferLive + c.schema.schemaSize + r.varLen) := by
      rw [insert_nonDup_eq c st r hkt]
    obtain ⟨h1, h2⟩ := insertAll_buffer_bound c hkt rs (MemTable.insert c st r) hb
    rw [hone]
    refine ⟨h1, le_trans h2 ?_⟩
    rw [hh, h0]
    have hm : maxVarLen (r :: rs) = max r.varLen (maxVarLen rs) := rfl
    rw [hm]
    apply Nat.max_le.mpr
    constructor
    · apply Nat.max_le.mpr
      constructor
      · exact Nat.le_max_left _ _
      · refine le_trans ?_ (Nat.le_max_right st.bufferHigh _)
        have : c.schema.schemaSize + r.varLen ≤
            c.schema.schemaSize + max r.varLen (maxVarLen rs) :=
          Nat.add_le_add_left (Nat.le_max_left _ _) _
        omega
    · refine le_trans ?_ (Nat.le_max_right st.bufferHigh _)
      exact Nat.add_le_add_left (Nat.le_max_right _ _) _

/-! ## Limit-checked insert -/

theorem insertF_rows (c : MemTableCfg) (limit : Nat) (st : MemTableState)
    (r : Row) : (MemTable.insertF c limit st r).2.rows = st.rows + 1 := by
  unfold MemTable.insertF
  by_cases h1 : trackerUsage st + (c.schema.schemaSize + r.varLen) ≤ limit
  · rw [if_pos h1]
    by_cases h2 : c.keysType = KeysType.DUP_KEYS
    · rw [if_pos h2]
      exact insert_rows c st r
    · rw [if_neg h2]
      by_cases h3 : (findRow c.cmp r.key st.index).1
      · rw [if_pos h3]
        exact insert_rows c st r
      · rw [if_neg h3]
        by_cases h4 : trackerUsage st + (c.schema.schemaSize + r.varLen) +
            (c.schema.schemaSize + r.varLen) ≤ limit
        · rw [if_pos h4]
          exact insert_rows c st r
        · rw [if_neg h4]
  · rw [if_neg h1]

theorem insertAllF_rows (c : MemTableCfg) (limit : Nat) :
    ∀ (rs : List Row) (st : MemTableState),
      (MemTable.insertAllF c limit st rs).rows = st.rows + rs.length
  | [], st => by simp [MemTable.insertAllF]
  | r :: rs, st => by
    have hone : MemTable.insertAllF c limit st (r :: rs) =
        MemTable.insertAllF c limit (MemTable.insertF c limit st r).2 rs := rfl
    rw [hone, insertAllF_rows c limit rs _, insertF_rows]
    simp [List.length_cons]
    omega

theorem insertF_fail_state (c : MemTableCfg) (limit : Nat) (st : MemTableState)
    (r : Row)
    (hfail : (MemTable.insertF c limit st r).1 = Status.MemoryLimitExceeded) :
    (MemTable.insertF c limit st r).2.index = st.index ∧
    (MemTable.insertF c limit st r).2.rows = st.rows + 1 := by
  refine ⟨?_, insertF_rows c limit st r⟩
  unfold MemTable.insertF at hfail ⊢
  by_cases h1 : trackerUsage st + (c.schema.schemaSize + r.varLen) ≤ limit
  · rw [if_pos h1] at hfail ⊢
    by_cases h2 : c.keysType = KeysType.DUP_KEYS
    · rw [if_pos h2] at hfail
      exact Status.noConfusion hfail
    · rw [if_neg h2] at hfail ⊢
      by_cases h3 : (findRow c.cmp r.key st.index).1
      · rw [if_pos h3] at hfail
        exact Status.noConfusion hfail
      · rw [if_neg h3] at hfail ⊢
        by_cases h4 : trackerUsage st + (c.schema.schemaSize + r.varLen) +
            (c.schema.schemaSize + r.varLen) ≤ limit
        · rw [if_pos h4] at hfail
          exact Status.noConfusion hfail
        · rw [if_neg h4]
  · rw [if_neg h1]

/-! ## Concrete instances used by witnesses and counterexamples -/

/-- A two-column schema `(k int key, v sum int)`. -/
def schemaSumW : Schema :=
  { hasSequenceCol := false, sequenceColIdx := 0,
    agg := fun _ d s2 => d + s2, finalizeVal := fun _ v => v, schemaSize := 8 }

/-- A schema `(k int key, v replace int, seq int)` with a sequence column at
value position 1. -/
def schemaSeqW : Schema :=
  { hasSequenceCol := true, sequenceColIdx := 1,
    agg := fun _ _ s2 => s2, finalizeVal := fun _ v => v, schemaSize := 8 }

/-- A schema whose finalizer visibly changes every value cell. -/
def schemaFinW : Schema :=
  { hasSequenceCol := false, sequenceColIdx := 0,
    agg := fun _ d _ => d, finalizeVal := fun _ v => v + 1, schemaSize := 8 }

/-- An `AGG` memtable over `schemaSumW` with lexicographic sort. -/
def cfgAggW : MemTableCfg :=
  { schema := schemaSumW, keysType := KeysType.AGG_KEYS,
    sortType := SortType.LEXICAL, zcmp := fun _ _ => Ordering.eq }

/-- A `DUP` memtable over `schemaSumW` with lexicographic sort. -/
def cfgDupW : MemTableCfg :=
  { schema := schemaSumW, keysType := KeysType.DUP_KEYS,
    sortType := SortType.LEXICAL, zcmp := fun _ _ => Ordering.eq }

/-- A `UNIQUE` memtable with a sequence column and lexicographic sort. -/
def cfgUniW : MemTableCfg :=
  { schema := schemaSeqW, keysType := KeysType.UNIQUE_KEYS,
    sortType := SortType.LEXICAL, zcmp := fun _ _ => Ordering.eq }

def rowA : Row := ⟨[1], [10], 0, 0⟩

def rowB : Row := ⟨[2], [5], 0, 0⟩

def rowC : Row := ⟨[1], [20], 0, 0⟩

def rowSeqA : Row := ⟨[1], [100, 5], 0, 0⟩

def rowSeqB : Row := ⟨[1], [200, 3], 0, 0⟩

def rowSeqC : Row := ⟨[1], [150, 7], 0, 0⟩

def rowSeqD : Row := ⟨[1], [999, 7], 0, 0⟩

/-- A row whose encoding constructs one aggregate-typed object. -/
def rowObjW : Row := ⟨[1], [2], 0, 1⟩

/-- A writer whose fast path is not implemented and whose fallback succeeds. -/
def wNotImplW : Writer :=
  { fsm := Status.NotImplemented, addRow := fun _ => Status.OK,
    wflush := Status.OK }

/-- A writer whose fast path succeeds. -/
def wFastW : Writer :=
  { fsm := Status.OK, addRow := fun _ => Status.OK, wflush := Status.OK }

/-- A memtable state holding one row in the table arena. -/
def stOneW : MemTableState := MemTable.insert cfgDupW initState rowA

/-! ## The claims -/

/-- C1: for the `AGG` and `UNIQUE` key models, after any sequence of `insert`
calls every key appears at most once in the index; an insert whose encoded key
already exists aggregates the new row into the existing slot in place
(`_aggregate_two_row`, dispatching to `update_with_sequence` or `update`) and
creates no new index node, while an insert whose key is absent adds exactly
one new node at the hint position of the immediately preceding `Find`. -/
theorem C1_agg_unique_key_at_most_once (c : MemTableCfg)
    (hL : LawfulCmp c.cmp) (hkt : c.keysType ≠ KeysType.DUP_KEYS)
    (inputs : List Row) (st : MemTableState) (r : Row) :
    (MemTable.insertAll c initState inputs).index.Pairwise
      (fun a b => c.cmp a.key b.key ≠ Ordering.eq) ∧
    ((findRow c.cmp r.key st.index).1 = true →
      (MemTable.insert c st r).index =
        updAt (findRow c.cmp r.key st.index).2
          (fun d => aggregate_two_row c.schema r d) st.index ∧
      (MemTable.insert c st r).index.length = st.index.length) ∧
    ((findRow c.cmp r.key st.index).1 = false →
      (MemTable.insert c st r).index =
        insertAt (findRow c.cmp r.key st.index).2 r st.index ∧
      (MemTable.insert c st r).index.length = st.index.length + 1) := by
  have hidx : (MemTable.insert c st r).index =
      idxStep c.schema c.cmp st.index r := by
    rw [insert_nonDup_eq c st r hkt]
  refine ⟨?_, ?_, ?_⟩
  · have hinv := insertAll_nonDup_inv c hL hkt inputs initState []
      List.Pairwise.nil (fun _ => rfl)
    refine hinv.1.imp (fun hab => ?_)
    have hab2 : c.cmp _ _ = Ordering.lt := hab
    rw [hab2]
    decide
  · intro hf
    have hup : idxStep c.schema c.cmp st.index r =
        updAt (findRow c.cmp r.key st.index).2
          (fun d => aggregate_two_row c.schema r d) st.index := by
      unfold idxStep
      rw [if_pos hf]
    exact ⟨hidx.trans hup, by rw [hidx, hup, updAt_length]⟩
  · intro hf
    have hup : idxStep c.schema c.cmp st.index r =
        insertAt (findRow c.cmp r.key st.index).2 r st.index := by
      unfold idxStep
      rw [if_neg (by rw [hf]; decide)]
    exact ⟨hidx.trans hup, by rw [hidx, hup, insertAt_length]⟩

/-- Witness for C1: a concrete `AGG` memtable, with the duplicate key `[1]`
inserted twice among the inputs and probed both on the found and the
not-found path. -/
theorem C1_witness :
    (MemTable.insertAll cfgAggW initState [rowA, rowB, rowC]).index.Pairwise
      (fun a b => cfgAggW.cmp a.key b.key ≠ Ordering.eq) ∧
    ((findRow cfgAggW.cmp rowC.key stOneW.index).1 = true →
      (MemTable.insert cfgAggW stOneW rowC).index =
        updAt (findRow cfgAggW.cmp rowC.key stOneW.index).2
          (fun d => aggregate_two_row cfgAggW.schema rowC d) stOneW.index ∧
      (MemTable.insert cfgAggW stOneW rowC).index.length =
        stOneW.index.length) ∧
    ((findRow cfgAggW.cmp rowC.key stOneW.index).1 = false →
      (MemTable.insert cfgAggW stOneW rowC).index =
        insertAt (findRow cfgAggW.cmp rowC.key stOneW.index).2 rowC
          stOneW.index ∧
      (MemTable.insert cfgAggW stOneW rowC).index.length =
        stOneW.index.length + 1) :=
  C1_agg_unique_key_at_most_once cfgAggW lexCmp_lawful (by decide)
    [rowA, rowB, rowC] stOneW rowC

/-- C2: for every key model and every sequence of `insert` calls, the ordered
traversal of the finalized memtable (the flush fallback and the public
iterator both walk `flushRows`) yields rows in non-decreasing comparator
order, the comparator being the constructor's choice (`MemTableCfg.cmp`:
Z-order when the tablet sort type is Z-order, else lexicographic). -/
theorem C2_flush_iteration_sorted (c : MemTableCfg) (hL : LawfulCmp c.cmp)
    (inputs : List Row) :
    (flushRows c.schema (MemTable.insertAll c initState inputs)).Pairwise
      (rowLE c.cmp) := by
  by_cases hkt : c.keysType = KeysType.DUP_KEYS
  · exact flushRows_pairwise c.schema _
      (insertAll_dup_inv c hL hkt inputs initState List.Pairwise.nil).1
  · exact flushRows_pairwise c.schema _
      (strictSorted_sortedLE
        (insertAll_nonDup_inv c hL hkt inputs initState []
          List.Pairwise.nil (fun _ => rfl)).1)

/-- Witness for C2: a concrete `DUP` memtable with out-of-order arrivals. -/
theorem C2_witness :
    (flushRows cfgDupW.schema
      (MemTable.insertAll cfgDupW initState [rowB, rowA, rowC])).Pairwise
        (rowLE cfgDupW.cmp) :=
  C2_flush_iteration_sorted cfgDupW lexCmp_lawful [rowB, rowA, rowC]

/-- C3: for the `DUP` key model, the flushed output has one row per `insert`
call (`rows` agrees), the multiset of output keys equals the multiset of
inserted keys, and the rows matching any key appear in their insertion
order (each finalized). -/
theorem C3_dup_preserves_duplicates (c : MemTableCfg) (hL : LawfulCmp c.cmp)
    (hkt : c.keysType = KeysType.DUP_KEYS) (inputs : List Row)
    (k : List Int) :
    (flushRows c.schema (MemTable.insertAll c initState inputs)).length =
      inputs.length ∧
    (MemTable.insertAll c initState inputs).rows = inputs.length ∧
    List.Perm
      ((flushRows c.schema (MemTable.insertAll c initState inputs)).map
        Row.key)
      (inputs.map Row.key) ∧
    (flushRows c.schema (MemTable.insertAll c initState inputs)).filter
        (fun x => c.cmp x.key k == Ordering.eq) =
      (inputs.filter (fun x => c.cmp x.key k == Ordering.eq)).map
        (agg_finalize_row c.schema) := by
  obtain ⟨_, hperm, hrows, hfilter⟩ :=
    insertAll_dup_inv c hL hkt inputs initState List.Pairwise.nil
  have hperm2 : List.Perm (MemTable.insertAll c initState inputs).index
      inputs := by
    have h2 := hperm
    rw [show initState.index = [] from rfl, List.append_nil] at h2
    exact h2
  have hkeymap : (flushRows c.schema
      (MemTable.insertAll c initState inputs)).map Row.key =
      (MemTable.insertAll c initState inputs).index.map Row.key := by
    unfold flushRows
    rw [List.map_map]
    have hcomp : (Row.key ∘ agg_finalize_row c.schema) = Row.key := by
      funext x
      simp [Function.comp, agg_finalize_row_key]
    rw [hcomp]
  refine ⟨?_, ?_, ?_, ?_⟩
  · rw [flushRows_length]
    exact hperm2.length_eq
  · rw [hrows]
    exact Nat.zero_add inputs.length
  · rw [hkeymap]
    exact hperm2.map Row.key
  · rw [flushRows_filter, hfilter k]
    rw [show initState.index = [] from rfl]
    rfl

/-- Witness for C3: three rows, two sharing key `[1]`, with the query key
`[1]`. -/
theorem C3_witness :
    (flushRows cfgDupW.schema
      (MemTable.insertAll cfgDupW initState [rowA, rowB, rowC])).length =
      [rowA, rowB, rowC].length ∧
    (MemTable.insertAll cfgDupW initState [rowA, rowB, rowC]).rows =
      [rowA, rowB, rowC].length ∧
    List.Perm
      ((flushRows cfgDupW.schema
        (MemTable.insertAll cfgDupW initState [rowA, rowB, rowC])).map
          Row.key)
      ([rowA, rowB, rowC].map Row.key) ∧
    (flushRows cfgDupW.schema
        (MemTable.insertAll cfgDupW initState [rowA, rowB, rowC])).filter
        (fun x => cfgDupW.cmp x.key [1] == Ordering.eq) =
      ([rowA, rowB, rowC].filter
        (fun x => cfgDupW.cmp x.key [1] == Ordering.eq)).map
        (agg_finalize_row cfgDupW.schema) :=
  C3_dup_preserves_duplicates cfgDupW lexCmp_lawful rfl [rowA, rowB, rowC] [1]

/-- C4: for `UNIQUE` with a sequence column, merging an arriving row into an
equal-key slot overwrites every value column exactly when the arriving
sequence cell is at least the stored one; consequently the slot for each key
carries the value columns of the arrival with the maximum sequence value
(ties to the last arrival), and the flushed row for the key is its
finalization. -/
theorem C4_unique_sequence_winner (c : MemTableCfg) (hL : LawfulCmp c.cmp)
    (hkt : c.keysType = KeysType.UNIQUE_KEYS)
    (hseq : c.schema.hasSequenceCol = true) (inputs : List Row)
    (k : List Int) (r d : Row) :
    (aggregate_two_row c.schema r d =
      if seqOf c.schema.sequenceColIdx d ≤ seqOf c.schema.sequenceColIdx r
      then { d with vals := r.vals } else d) ∧
    (Option.map Row.vals
        (lookupKey c.cmp k (MemTable.insertAll c initState inputs).index) =
      Option.map Row.vals
        (winnerBySeq c.schema.sequenceColIdx
          (inputs.filter (fun x => c.cmp x.key k == Ordering.eq)))) ∧
    (lookupKey c.cmp k
        (flushRows c.schema (MemTable.insertAll c initState inputs)) =
      Option.map (agg_finalize_row c.schema)
        (lookupKey c.cmp k (MemTable.insertAll c initState inputs).index)) ∧
    (∀ w, winnerBySeq c.schema.sequenceColIdx
        (inputs.filter (fun x => c.cmp x.key k == Ordering.eq)) = some w →
      w ∈ inputs.filter (fun x => c.cmp x.key k == Ordering.eq) ∧
      ∀ x ∈ inputs.filter (fun x => c.cmp x.key k == Ordering.eq),
        seqOf c.schema.sequenceColIdx x ≤ seqOf c.schema.sequenceColIdx w) := by
  have hkt2 : c.keysType ≠ KeysType.DUP_KEYS := by
    rw [hkt]
    decide
  refine ⟨?_, ?_, lookupKey_flushRows c.schema c.cmp k _, ?_⟩
  · unfold aggregate_two_row agg_update_row_with_sequence
    rw [if_pos hseq]
  · have hinv := insertAll_nonDup_inv c hL hkt2 inputs initState []
      List.Pairwise.nil (fun _ => rfl)
    have hlk := hinv.2 k
    rw [show ([] : List Row) ++ inputs = inputs from rfl] at hlk
    rw [hlk, specAgg_eq_foldl]
    exact foldl_specAgg_winner c.schema c.cmp k hseq inputs none none rfl
  · intro w hw
    by_cases hne : inputs.filter (fun x => c.cmp x.key k == Ordering.eq) = []
    · rw [hne] at hw
      exact Option.noConfusion hw
    · obtain ⟨w2, hw2, hmem, hall⟩ :=
        winnerBySeq_spec c.schema.sequenceColIdx _ hne
      rw [hw] at hw2
      cases hw2
      exact ⟨hmem, hall⟩

/-- Witness for C4: the spec scenario 5 — key `[1]` with sequence values
5, 3, 7, 7; the last arrival of the tied maximum wins. -/
theorem C4_witness :
    (aggregate_two_row cfgUniW.schema rowSeqD rowSeqC =
      if seqOf cfgUniW.schema.sequenceColIdx rowSeqC ≤
          seqOf cfgUniW.schema.sequenceColIdx rowSeqD
      then { rowSeqC with vals := rowSeqD.vals } else rowSeqC) ∧
    (Option.map Row.vals
        (lookupKey cfgUniW.cmp [1]
          (MemTable.insertAll cfgUniW initState
            [rowSeqA, rowSeqB, rowSeqC, rowSeqD]).index) =
      Option.map Row.vals
        (winnerBySeq cfgUniW.schema.sequenceColIdx
          ([rowSeqA, rowSeqB, rowSeqC, rowSeqD].filter
            (fun x => cfgUniW.cmp x.key [1] == Ordering.eq)))) ∧
    (lookupKey cfgUniW.cmp [1]
        (flushRows cfgUniW.schema
          (MemTable.insertAll cfgUniW initState
            [rowSeqA, rowSeqB, rowSeqC, rowSeqD])) =
      Option.map (agg_finalize_row cfgUniW.schema)
        (lookupKey cfgUniW.cmp [1]
          (MemTable.insertAll cfgUniW initState
            [rowSeqA, rowSeqB, rowSeqC, rowSeqD]).index)) ∧
    (∀ w, winnerBySeq cfgUniW.schema.sequenceColIdx
        ([rowSeqA, rowSeqB, rowSeqC, rowSeqD].filter
          (fun x => cfgUniW.cmp x.key [1] == Ordering.eq)) = some w →
      w ∈ [rowSeqA, rowSeqB, rowSeqC, rowSeqD].filter
          (fun x => cfgUniW.cmp x.key [1] == Ordering.eq) ∧
      ∀ x ∈ [rowSeqA, rowSeqB, rowSeqC, rowSeqD].filter
          (fun x => cfgUniW.cmp x.key [1] == Ordering.eq),
        seqOf cfgUniW.schema.sequenceColIdx x ≤
          seqOf cfgUniW.schema.sequenceColIdx w) :=
  C4_unique_sequence_winner cfgUniW lexCmp_lawful rfl rfl
    [rowSeqA, rowSeqB, rowSeqC, rowSeqD] [1] rowSeqD rowSeqC

/-- C5 as stated is false on the source: `_rows++` precedes the first
allocation (line 69), so an insert that fails with `MemoryLimitExceeded` has
already bumped the counter.  At limit 0 the very first `DUP` insert is denied
yet `rows` becomes 1. -/
theorem C5_counterexample :
    (MemTable.insertF cfgDupW 0 initState rowA).1 =
      Status.MemoryLimitExceeded ∧
    (MemTable.insertF cfgDupW 0 initState rowA).2.rows = 1 := by
  constructor
  · decide
  · decide

/-- C5 amended: when `insert` fails with `MemoryLimitExceeded`, the index is
untouched but the row counter has already been incremented (the source
increments first), so `rows` equals the number of attempted `insert` calls,
successful or not. -/
theorem C5_amended_counter (c : MemTableCfg) (limit : Nat)
    (st : MemTableState) (r : Row) (rs : List Row)
    (hfail : (MemTable.insertF c limit st r).1 = Status.MemoryLimitExceeded) :
    (MemTable.insertF c limit st r).2.index = st.index ∧
    (MemTable.insertF c limit st r).2.rows = st.rows + 1 ∧
    (MemTable.insertAllF c limit st rs).rows = st.rows + rs.length := by
  obtain ⟨h1, h2⟩ := insertF_fail_state c limit st r hfail
  exact ⟨h1, h2, insertAllF_rows c limit rs st⟩

/-- Witness for C5's amended statement at limit 0. -/
theorem C5_witness :
    (MemTable.insertF cfgDupW 0 initState rowA).2.index = initState.index ∧
    (MemTable.insertF cfgDupW 0 initState rowA).2.rows = initState.rows + 1 ∧
    (MemTable.insertAllF cfgDupW 0 initState [rowA, rowB]).rows =
      initState.rows + [rowA, rowB].length :=
  C5_amended_counter cfgDupW 0 initState rowA [rowA, rowB] (by decide)

/-- C6: for the `AGG`/`UNIQUE` key models, every `insert` clears the buffer
arena and the scratch aggregate pool before returning, on the found path and
the not-found path alike (lines 102-103): afterwards the buffer arena's live
allocation is zero, one call raises the high-water mark by at most one
schema-sized row plus that row's out-of-band bytes, and over any input
sequence the high-water mark stays bounded by one row plus the largest
out-of-band payload. -/
theorem C6_buffer_reset (c : MemTableCfg)
    (hkt : c.keysType ≠ KeysType.DUP_KEYS) (st : MemTableState) (r : Row)
    (inputs : List Row) :
    (MemTable.insert c st r).bufferLive = 0 ∧
    (MemTable.insert c st r).aggScratch = 0 ∧
    (MemTable.insert c st r).bufferHigh =
      max st.bufferHigh (st.bufferLive + c.schema.schemaSize + r.varLen) ∧
    (MemTable.insertAll c initState inputs).bufferLive = 0 ∧
    (MemTable.insertAll c initState inputs).bufferHigh ≤
      c.schema.schemaSize + maxVarLen inputs := by
  have h1 : (MemTable.insert c st r).bufferLive = 0 := by
    rw [insert_nonDup_eq c st r hkt]
  have h2 : (MemTable.insert c st r).aggScratch = 0 := by
    rw [insert_nonDup_eq c st r hkt]
  have h3 : (MemTable.insert c st r).bufferHigh =
      max st.bufferHigh (st.bufferLive + c.schema.schemaSize + r.varLen) := by
    rw [insert_nonDup_eq c st r hkt]
  obtain ⟨h4, h5⟩ := insertAll_buffer_bound c hkt inputs initState rfl
  refine ⟨h1, h2, h3, h4, ?_⟩
  have hz : max initState.bufferHigh
      (c.schema.schemaSize + maxVarLen inputs) =
      c.schema.schemaSize + maxVarLen inputs := Nat.zero_max _
  rw [hz] at h5
  exact h5

/-- Witness for C6 at a concrete `AGG` memtable. -/
theorem C6_witness :
    (MemTable.insert cfgAggW stOneW rowC).bufferLive = 0 ∧
    (MemTable.insert cfgAggW stOneW rowC).aggScratch = 0 ∧
    (MemTable.insert cfgAggW stOneW rowC).bufferHigh =
      max stOneW.bufferHigh
        (stOneW.bufferLive + cfgAggW.schema.schemaSize + rowC.varLen) ∧
    (MemTable.insertAll cfgAggW initState [rowA, rowB, rowC]).bufferLive = 0 ∧
    (MemTable.insertAll cfgAggW initState [rowA, rowB, rowC]).bufferHigh ≤
      cfgAggW.schema.schemaSize + maxVarLen [rowA, rowB, rowC] :=
  C6_buffer_reset cfgAggW (by decide) stOneW rowC [rowA, rowB, rowC]

/-- C7: when `flush_single_memtable` returns the distinguished
`NotImplemented` status, `flush` recovers locally: it streams every finalized
row in comparator order through `add_row`, calls the writer's `flush`, and
returns OK whenever those succeed — the `NotImplemented` status never reaches
the caller. -/
theorem C7_flush_fallback (s : Schema) (w : Writer) (st : MemTableState)
    (hni : w.fsm = Status.NotImplemented)
    (hadd : ∀ r ∈ flushRows s st, w.addRow r = Status.OK)
    (hwf : w.wflush = Status.OK) :
    flushT s w st =
      (Status.OK,
        WEv.fsmCall :: ((flushRows s st).map WEv.addRowCall ++
          [WEv.wflushCall])) := by
  unfold flushT
  rw [if_pos hni, addRowLoop_ok w (flushRows s st) hadd, if_pos rfl,
    if_pos hwf]

/-- Witness for C7: a concrete writer without the fast path over a one-row
memtable. -/
theorem C7_witness :
    flushT schemaSumW wNotImplW stOneW =
      (Status.OK,
        WEv.fsmCall :: ((flushRows schemaSumW stOneW).map WEv.addRowCall ++
          [WEv.wflushCall])) :=
  C7_flush_fallback schemaSumW wNotImplW stOneW rfl (fun _ _ => rfl) rfl

/-- C8 as stated is false on the source: `close` is exactly `return flush();`
(line 157) and releases neither arena, while the spec-modelled `closeSpec`
returns both arenas' memory — on a state holding one row in the table arena
the two disagree. -/
theorem C8_counterexample :
    MemTable.close schemaSumW wFastW stOneW ≠
      MemTable.closeSpec schemaSumW wFastW stOneW := by
  decide

/-- C8 amended: `close` produces exactly `flush`'s status and writer call
sequence and leaves the memtable state — in particular both arenas' accounted
memory — unchanged; the arenas are released only by the destructor. -/
theorem C8_amended_close_is_flush (s : Schema) (w : Writer)
    (st : MemTableState) :
    (MemTable.close s w st).1 = (flushT s w st).1 ∧
    (MemTable.close s w st).2.1 = (flushT s w st).2 ∧
    (MemTable.close s w st).2.2 = st :=
  ⟨rfl, rfl, rfl⟩

/-- A one-row state under the cell-changing finalizer schema. -/
def stFinW : MemTableState :=
  { rows := 1, index := [rowA], bufferLive := 0, bufferHigh := 8,
    tableLive := 8, aggScratch := 0, aggDurable := 0, ev := [] }

/-- C9 as stated is false on the source: `Iterator::next` only advances the
skip-list cursor (line 172) and finalizes nothing; under a schema whose
finalizer changes cells, the state after `next` differs from the
spec-modelled advance-and-finalize `nextSpec`. -/
theorem C9_counterexample :
    (Iterator.next stFinW ⟨0⟩).2 ≠
      (Iterator.nextSpec schemaFinW stFinW ⟨0⟩).2 := by
  decide

/-- C9 amended: the iterator yields finalized rows in comparator order, but
the lazy finalization happens in `get_current_row` when the row is fetched
(it also rewrites the slot in place); `next` merely advances the cursor and
touches no row. -/
theorem C9_amended_lazy_finalize (s : Schema) (st : MemTableState)
    (it : MIter) (h : Iterator.valid st it = true) :
    (Iterator.get_current_row s st it).1 =
      (flushRows s st).getD it.pos row0 ∧
    (Iterator.get_current_row s st it).2.index =
      updAt it.pos (agg_finalize_row s) st.index ∧
    (Iterator.next st it).2 = st ∧
    (Iterator.next st it).1.pos = it.pos + 1 := by
  have hlt : it.pos < st.index.length := by
    simpa [Iterator.valid] using h
  refine ⟨?_, rfl, rfl, rfl⟩
  rw [flushRows_getD s st it.pos hlt]
  rfl

/-- Witness for C9's amended statement on a one-row memtable. -/
theorem C9_witness :
    (Iterator.get_current_row schemaFinW stFinW ⟨0⟩).1 =
      (flushRows schemaFinW stFinW).getD (MIter.mk 0).pos row0 ∧
    (Iterator.get_current_row schemaFinW stFinW ⟨0⟩).2.index =
      updAt (MIter.mk 0).pos (agg_finalize_row schemaFinW) stFinW.index ∧
    (Iterator.next stFinW ⟨0⟩).2 = stFinW ∧
    (Iterator.next stFinW ⟨0⟩).1.pos = (MIter.mk 0).pos + 1 :=
  C9_amended_lazy_finalize schemaFinW stFinW ⟨0⟩ (by decide)

/-- C10 as stated is false on the source: the `DUP` branch encodes through
`_tuple_to_row` (line 76), which always passes `_agg_buffer_pool` — the
scratch aggregate object pool — as the object pool (line 113), so a row with
an aggregate-typed cell grows the scratch pool, and the `DUP` path never
clears it. -/
theorem C10_counterexample :
    (MemTable.insert cfgDupW initState rowObjW).aggScratch ≠
      initState.aggScratch := by
  decide

/-- C10 amended: a `DUP` insert allocates only in the table arena and returns
before the buffer-arena path: buffer-arena live and high-water are untouched,
the trace is exactly allocate-in-table-arena then skip-list insert (no find,
no buffer allocation, no clears) — but row encoding does grow the scratch
aggregate object pool by the row's aggregate-typed objects. -/
theorem C10_amended_dup_frame (c : MemTableCfg) (st : MemTableState)
    (t : Row) (hkt : c.keysType = KeysType.DUP_KEYS) :
    (MemTable.insert c st t).bufferLive = st.bufferLive ∧
    (MemTable.insert c st t).bufferHigh = st.bufferHigh ∧
    (MemTable.insert c st t).ev = st.ev ++ [Ev.allocTableE, Ev.insertE] ∧
    (MemTable.insert c st t).tableLive =
      st.tableLive + c.schema.schemaSize + t.varLen ∧
    (MemTable.insert c st t).aggScratch = st.aggScratch + t.aggObjs := by
  rw [insert_dup_eq c st t hkt]
  exact ⟨rfl, rfl, rfl, rfl, rfl⟩

/-- Witness for C10's amended statement. -/
theorem C10_witness :
    (MemTable.insert cfgDupW initState rowObjW).bufferLive =
      initState.bufferLive ∧
    (MemTable.insert cfgDupW initState rowObjW).bufferHigh =
      initState.bufferHigh ∧
    (MemTable.insert cfgDupW initState rowObjW).ev =
      initState.ev ++ [Ev.allocTableE, Ev.insertE] ∧
    (MemTable.insert cfgDupW initState rowObjW).tableLive =
      initState.tableLive + cfgDupW.schema.schemaSize + rowObjW.varLen ∧
    (MemTable.insert cfgDupW initState rowObjW).aggScratch =
      initState.aggScratch + rowObjW.aggObjs :=
  C10_amended_dup_frame cfgDupW initState rowObjW rfl

end Doris
